import Mathlib

/-!
Verification of the crawl-frontier queue of `rustic-crawler`.

The development shallowly embeds the three source files:
* `src/rustic-crawler/src/url_queue.rs` — the deduplicating LIFO queue
  (`UrlQueue` below, plus a fine-grained concurrent model `Conc`);
* `src/rustic-crawler/src/crawler.rs` — the crawler module with its own,
  dedup-free queue (`CrawlerMod` below);
* `src/rustic-crawler/src/main.rs` — CLI entry point (`mainModel` below).

Rust `String` is kept as Lean `String` (URLs are opaque identifiers compared
by exact equality).  `Vec<String>` becomes `List String` with `Vec::push` as
append-at-back and `Vec::pop` as remove-last (`getLast?` / `dropLast`).
`HashSet<String>` is membership-relevant only, so it is carried as a
`List String` queried through `∈`; `HashSet::insert` is cons and
`HashSet::from_iter` keeps the element list.  In the sequential model the
mutexes disappear (every call runs to completion); the concurrent model
`Conc` represents both locks explicitly.
-/

namespace RusticCrawler

/-- State of `UrlQueue` from `url_queue.rs`: the pending vector `queue`
and the `seen` hash set (represented by its element list). -/
structure UrlQueue where
  queue : List String
  seen : List String
deriving Repr, DecidableEq

/-- `UrlQueue::new`: `queue` is `start_urls` verbatim (a clone of the vector),
`seen` is `HashSet::from_iter(start_urls)`. -/
def UrlQueue.new (start_urls : List String) : UrlQueue :=
  { queue := start_urls, seen := start_urls }

/-- One iteration of the loop body of `UrlQueue::push`: if the URL
is not yet in `seen`, push it on the queue and insert it into `seen`. -/
def UrlQueue.pushOne (q : UrlQueue) (url : String) : UrlQueue :=
  if url ∈ q.seen then q
  else { queue := q.queue ++ [url], seen := url :: q.seen }

/-- `UrlQueue::push`: fold the loop body over the input list. -/
def UrlQueue.push (q : UrlQueue) (urls : List String) : UrlQueue :=
  urls.foldl UrlQueue.pushOne q

/-- `UrlQueue::take`: `Vec::pop` on the queue — returns the last element
(or `none` when empty) together with the updated state. -/
def UrlQueue.take (q : UrlQueue) : Option String × UrlQueue :=
  (q.queue.getLast?, { q with queue := q.queue.dropLast })

/-- Repeatedly call `take` until it yields `none`, collecting the results;
the fuel argument bounds the recursion (the queue shrinks at every step). -/
def UrlQueue.drainFuel : Nat → UrlQueue → List String
  | 0, _ => []
  | n + 1, q =>
    match q.take with
    | (none, _) => []
    | (some u, q') => u :: UrlQueue.drainFuel n q'

/-- Drain the whole queue: call `take` until it returns `none`. -/
def UrlQueue.drain (q : UrlQueue) : List String :=
  UrlQueue.drainFuel q.queue.length q

/-- A single client operation against the queue. -/
inductive Op where
  | push (urls : List String)
  | take
deriving Repr, DecidableEq

/-- Run a sequence of operations, collecting the outputs of the successful
`take` calls in order. -/
def runOps (q : UrlQueue) : List Op → List String × UrlQueue
  | [] => ([], q)
  | Op.push urls :: rest => runOps (q.push urls) rest
  | Op.take :: rest =>
    match q.take with
    | (none, q') => runOps q' rest
    | (some u, q') =>
      let r := runOps q' rest
      (u :: r.1, r.2)

/-- All URLs supplied by the `push` operations of a run, in order. -/
def suppliedOf : List Op → List String
  | [] => []
  | Op.push urls :: rest => urls ++ suppliedOf rest
  | Op.take :: rest => suppliedOf rest

/-- The sub-sequence of `urls` that `UrlQueue::push` actually appends when
the seen-set is `seen`: first occurrences of URLs not already seen. -/
def newUrls (seen : List String) : List String → List String
  | [] => []
  | u :: rest => if u ∈ seen then newUrls seen rest else u :: newUrls (u :: seen) rest

/-! ## The crawler module (`crawler.rs`)

`crawler.rs` declares its own `UrlQueue`, distinct from the one in
`url_queue.rs`: a single mutex-guarded `Vec<String>` with no seen-set. -/

namespace CrawlerMod

/-- `CrawlerConfig` from `crawler.rs`.  The `u64` fields are carried as
`Nat` (their values are CLI counts, far from overflow). -/
structure CrawlerConfig where
  rate_limit : Nat
  allow_urls : List String
  disallow_urls : List String
  thread_count : Nat
deriving Repr, DecidableEq

/-- The `UrlQueue` of `crawler.rs`: only a queue vector, no seen-set. -/
structure UrlQueue where
  queue : List String
deriving Repr, DecidableEq

/-- `UrlQueue::new` in `crawler.rs`: a one-element vector holding the start
URL. -/
def UrlQueue.new (start_url : String) : UrlQueue :=
  { queue := [start_url] }

/-- `UrlQueue::add` in `crawler.rs`: `Vec::append` moves every element of the
caller's vector onto the back of the queue, leaving the caller's vector
empty.  The result pairs the new queue state with the drained argument. -/
def UrlQueue.add (q : UrlQueue) (urls : List String) : UrlQueue × List String :=
  ({ queue := q.queue ++ urls }, [])

/-- `UrlQueue::take` in `crawler.rs`: `Vec::pop`. -/
def UrlQueue.take (q : UrlQueue) : Option String × UrlQueue :=
  (q.queue.getLast?, { queue := q.queue.dropLast })

/-- `Crawler` from `crawler.rs`: the shared config and the URL queue of this
module (not the deduplicating one of `url_queue.rs`). -/
structure Crawler where
  config : CrawlerConfig
  urls : UrlQueue
deriving Repr, DecidableEq

/-- `Crawler::new`. -/
def Crawler.new (config : CrawlerConfig) (start_url : String) : Crawler :=
  { config := config, urls := UrlQueue.new start_url }

end CrawlerMod

/-! ## Fine-grained concurrent model of `url_queue.rs`

`UrlQueue` guards `queue` and `seen` by two separate mutexes.  `push`
acquires the `queue` mutex and then the `seen` mutex before its loop and
holds both until it returns; `take` runs entirely under the `queue` mutex.
The model below makes every lock acquisition, loop iteration (split into
the `contains` check and the append/insert) and release a separate small
step, so atomicity claims are proved against arbitrary interleavings
instead of being assumed. -/

namespace Conc

/-- Program counter of one thread executing `push` or `take`. -/
inductive TState where
  /-- `push(urls)` invoked, before `queue.lock()`. -/
  | pIdle (urls : List String)
  /-- holds the `queue` mutex, before `seen.lock()`. -/
  | pHasQ (urls : List String)
  /-- holds both mutexes, at the head of the `for` loop. -/
  | pLoop (urls : List String)
  /-- observed `!seen.contains(&u)`, about to push `u` and insert it. -/
  | pApp (u : String) (urls : List String)
  /-- loop finished, about to drop the `seen` guard. -/
  | pRelS
  /-- about to drop the `queue` guard and return. -/
  | pRelQ
  /-- `take()` invoked, before `queue.lock()`. -/
  | tIdle
  /-- holds the `queue` mutex, about to `pop`. -/
  | tPop
  /-- about to drop the `queue` guard and return `r`. -/
  | tRelQ (r : Option String)
  /-- the call returned with result `r` (`none` for `push`). -/
  | ret (r : Option String)

/-- Global state: the two guarded collections, the owner of each mutex,
the per-thread program counters, and a history variable `enq` recording
every URL ever appended to the pending queue (initial seeds included). -/
structure CState where
  pending : List String
  seen : List String
  qlock : Option Nat
  slock : Option Nat
  ts : Nat → TState
  enq : List String

/-- Replace thread `i`'s program counter. -/
def setT (f : Nat → TState) (i : Nat) (t : TState) : Nat → TState :=
  fun j => if j = i then t else f j

/-- One small step of the system: some thread advances by one instruction
of `UrlQueue::push` or `UrlQueue::take`.  Lock-acquisition steps are
enabled only when the mutex is free; every other step is enabled purely by
the thread's program position, exactly as in the source (the guards are
held by construction of the control flow, not re-checked). -/
inductive Step : CState → CState → Prop where
  | pAcqQ (s : CState) (i : Nat) (urls : List String) :
      s.ts i = .pIdle urls → s.qlock = none →
      Step s { s with qlock := some i, ts := setT s.ts i (.pHasQ urls) }
  | pAcqS (s : CState) (i : Nat) (urls : List String) :
      s.ts i = .pHasQ urls → s.slock = none →
      Step s { s with slock := some i, ts := setT s.ts i (.pLoop urls) }
  | pSkip (s : CState) (i : Nat) (u : String) (rest : List String) :
      s.ts i = .pLoop (u :: rest) → u ∈ s.seen →
      Step s { s with ts := setT s.ts i (.pLoop rest) }
  | pCheck (s : CState) (i : Nat) (u : String) (rest : List String) :
      s.ts i = .pLoop (u :: rest) → u ∉ s.seen →
      Step s { s with ts := setT s.ts i (.pApp u rest) }
  | pAppend (s : CState) (i : Nat) (u : String) (rest : List String) :
      s.ts i = .pApp u rest →
      Step s { s with pending := s.pending ++ [u], seen := u :: s.seen,
                      enq := s.enq ++ [u], ts := setT s.ts i (.pLoop rest) }
  | pExit (s : CState) (i : Nat) :
      s.ts i = .pLoop [] →
      Step s { s with ts := setT s.ts i .pRelS }
  | pUnlockS (s : CState) (i : Nat) :
      s.ts i = .pRelS →
      Step s { s with slock := none, ts := setT s.ts i .pRelQ }
  | pUnlockQ (s : CState) (i : Nat) :
      s.ts i = .pRelQ →
      Step s { s with qlock := none, ts := setT s.ts i (.ret none) }
  | tAcqQ (s : CState) (i : Nat) :
      s.ts i = .tIdle → s.qlock = none →
      Step s { s with qlock := some i, ts := setT s.ts i .tPop }
  | tPopStep (s : CState) (i : Nat) :
      s.ts i = .tPop →
      Step s { s with pending := s.pending.dropLast,
                      ts := setT s.ts i (.tRelQ s.pending.getLast?) }
  | tUnlockQ (s : CState) (i : Nat) (r : Option String) :
      s.ts i = .tRelQ r →
      Step s { s with qlock := none, ts := setT s.ts i (.ret r) }

/-- Reachability: the reflexive-transitive closure of `Step`. -/
def Reach : CState → CState → Prop :=
  Relation.ReflTransGen Step

/-- Program positions at which a thread holds the `queue` mutex (its
critical section, for both operations). -/
def holdsQ : TState → Prop
  | .pHasQ _ => True
  | .pLoop _ => True
  | .pApp _ _ => True
  | .pRelS => True
  | .pRelQ => True
  | .tPop => True
  | .tRelQ _ => True
  | _ => False

/-- Program positions at which a thread holds the `seen` mutex. -/
def holdsS : TState → Prop
  | .pLoop _ => True
  | .pApp _ _ => True
  | .pRelS => True
  | _ => False

/-- A thread state that has not started running: a pending `push` call or a
pending `take` call. -/
def threadInit : TState → Prop
  | .pIdle _ => True
  | .tIdle => True
  | _ => False

/-- A well-formed initial state: both mutexes free, every thread yet to
run, the pending queue seeded without duplicates, the seeds recorded in
`seen`, and the enqueue history equal to the initial pending queue. -/
structure InitOK (s : CState) : Prop where
  qfree : s.qlock = none
  sfree : s.slock = none
  seeds : s.enq = s.pending
  subseen : ∀ u ∈ s.pending, u ∈ s.seen
  nodup : s.pending.Nodup
  tinit : ∀ i, threadInit (s.ts i)

/-- The inductive invariant of the system. -/
structure Inv (s : CState) : Prop where
  /-- every pending URL has been recorded as seen. -/
  subseen : ∀ u ∈ s.pending, u ∈ s.seen
  /-- no URL has ever been enqueued twice. -/
  nodup : s.enq.Nodup
  /-- every URL ever enqueued has been recorded as seen. -/
  enqseen : ∀ u ∈ s.enq, u ∈ s.seen
  /-- the pending queue is a sub-sequence of the enqueue history. -/
  pendsub : s.pending.Sublist s.enq
  /-- a thread whose program position holds the `queue` mutex owns it. -/
  qown : ∀ i, holdsQ (s.ts i) → s.qlock = some i
  /-- a thread whose program position holds the `seen` mutex owns it. -/
  sown : ∀ i, holdsS (s.ts i) → s.slock = some i
  /-- a thread about to append `u` observed `u ∉ seen`, and that
  observation is still valid. -/
  fresh : ∀ i u rest, s.ts i = .pApp u rest → u ∉ s.seen

/-- A five-thread example configuration: two pushers and three takers
against the seeded queue. -/
def exampleInit : CState where
  pending := ["https://example.com/1"]
  seen := ["https://example.com/1"]
  qlock := none
  slock := none
  ts := fun i =>
    if i = 0 then .pIdle ["https://example.com/2", "https://example.com/3"]
    else if i = 1 then .pIdle ["https://example.com/2"]
    else .tIdle
  enq := ["https://example.com/1"]

end Conc

/-! ## The entry point (`main.rs`) -/

/-- The parsed CLI arguments of `main.rs`. -/
structure Args where
  start_url : String
  rate_limit : Nat
  allow_urls : List String
  disallow_urls : List String
  thread_count : Nat
deriving Repr, DecidableEq

/-- Observable outcome of a run of `main`. `output` collects the `println!`
lines; `exitSuccess` is the process exit status (`main` returns `()` on every
path and never calls `process::exit` or panics here, so the process exits
with status 0, i.e. success, on both branches). -/
structure MainOutcome where
  output : List String
  exitSuccess : Bool
deriving Repr, DecidableEq

/-- `main` from `main.rs`: on an empty allow list it prints the error line and
returns early, constructing no crawler; otherwise it builds the config, the
crawler (whose `start` prints `"Crawling..."`) and returns.  The second
component is the crawler that was constructed and started, if any. -/
def mainModel (args : Args) : MainOutcome × Option CrawlerMod.Crawler :=
  if args.allow_urls.length = 0 then
    ({ output := ["error: there must be at least 1 allow url"], exitSuccess := true }, none)
  else
    let config : CrawlerMod.CrawlerConfig :=
      { rate_limit := args.rate_limit, allow_urls := args.allow_urls
        disallow_urls := args.disallow_urls, thread_count := args.thread_count }
    ({ output := ["Crawling..."], exitSuccess := true },
      some (CrawlerMod.Crawler.new config args.start_url))

/-- CLI arguments with an empty allow list (all other fields at their
defaults from `main.rs`). -/
def emptyAllowArgs : Args :=
  { start_url := "https://example.com", rate_limit := 15,
    allow_urls := [], disallow_urls := [], thread_count := 20 }

/-! ## The concurrent test scenario of `url_queue.rs` (`test::async_test`)

Pusher `index` first pushes `[duplicate, {index}/1, {index}/2]` and then
`[{index}/3, {index}/4, duplicate]`.  Ten pushers run against the queue
seeded with `"https://example.com/1"`, and ten takers attempt ten takes
each.  The run below is the serialization in which all pushes complete
before the 100 take attempts — a legal interleaving, since each `push` and
`take` call is one critical section (see the `Conc` model). -/

/-- First batch pushed by pusher `i` in `async_test`. -/
def pusherBatch1 (i : Nat) : List String :=
  ["https://example.com/duplicate",
   s!"https://example.com/{i}/1",
   s!"https://example.com/{i}/2"]

/-- Second batch pushed by pusher `i` in `async_test`. -/
def pusherBatch2 (i : Nat) : List String :=
  [s!"https://example.com/{i}/3",
   s!"https://example.com/{i}/4",
   "https://example.com/duplicate"]

/-- The push operations of the first `n` pushers, in index order. -/
def scenarioBPushes : Nat → List Op
  | 0 => []
  | n + 1 => scenarioBPushes n ++ [Op.push (pusherBatch1 n), Op.push (pusherBatch2 n)]

/-- All 20 push calls of the 10 pushers followed by the 100 take attempts
of the 10 takers. -/
def scenarioBOps : List Op :=
  scenarioBPushes 10 ++ List.replicate 100 Op.take

/-- Outputs and final state of scenario B, starting from the seeded
queue. -/
def scenarioBRun : List String × UrlQueue :=
  runOps (UrlQueue.new ["https://example.com/1"]) scenarioBOps

/-! ### Basic lemmas about the sequential `UrlQueue` -/

theorem UrlQueue.push_nil (q : UrlQueue) : q.push [] = q := rfl

theorem UrlQueue.push_cons (q : UrlQueue) (u : String) (rest : List String) :
    q.push (u :: rest) = (q.pushOne u).push rest := rfl

theorem UrlQueue.pushOne_seen (q : UrlQueue) (u v : String) :
    v ∈ (q.pushOne u).seen ↔ v = u ∨ v ∈ q.seen := by
  by_cases h : u ∈ q.seen
  · simp only [UrlQueue.pushOne, if_pos h]
    exact ⟨Or.inr, fun hv => hv.elim (fun e => e ▸ h) id⟩
  · simp only [UrlQueue.pushOne, if_neg h, List.mem_cons]

theorem UrlQueue.push_seen (q : UrlQueue) (l : List String) (v : String) :
    v ∈ (q.push l).seen ↔ v ∈ l ∨ v ∈ q.seen := by
  induction l generalizing q with
  | nil => simp [UrlQueue.push_nil]
  | cons u rest ih =>
    rw [UrlQueue.push_cons, ih, UrlQueue.pushOne_seen]
    simp only [List.mem_cons]
    tauto

theorem mem_newUrls (l : List String) :
    ∀ (seen : List String) (v : String), v ∈ newUrls seen l ↔ v ∈ l ∧ v ∉ seen := by
  induction l with
  | nil => intro seen v; simp [newUrls]
  | cons u rest ih =>
    intro seen v
    by_cases h : u ∈ seen
    · rw [newUrls, if_pos h, ih]
      simp only [List.mem_cons]
      constructor
      · rintro ⟨hr, hn⟩; exact ⟨Or.inr hr, hn⟩
      · rintro ⟨hu | hr, hn⟩
        · exact absurd (hu ▸ h) hn
        · exact ⟨hr, hn⟩
    · rw [newUrls, if_neg h]
      rw [List.mem_cons, ih (u :: seen) v]
      simp only [List.mem_cons]
      constructor
      · rintro (rfl | ⟨hr, hn⟩)
        · exact ⟨Or.inl rfl, h⟩
        · push_neg at hn; exact ⟨Or.inr hr, hn.2⟩
      · rintro ⟨hu | hr, hn⟩
        · exact Or.inl hu
        · by_cases hvu : v = u
          · exact Or.inl hvu
          · exact Or.inr ⟨hr, by simp [hvu, hn]⟩

theorem nodup_newUrls (l : List String) :
    ∀ seen : List String, (newUrls seen l).Nodup := by
  induction l with
  | nil => intro seen; simp [newUrls]
  | cons u rest ih =>
    intro seen
    by_cases h : u ∈ seen
    · rw [newUrls, if_pos h]; exact ih seen
    · rw [newUrls, if_neg h]
      refine List.Nodup.cons ?_ (ih (u :: seen))
      intro hmem
      exact ((mem_newUrls rest (u :: seen) u).1 hmem).2 (List.mem_cons_self u seen)

theorem UrlQueue.push_queue_eq (l : List String) :
    ∀ q : UrlQueue, (q.push l).queue = q.queue ++ newUrls q.seen l := by
  induction l with
  | nil => intro q; simp [UrlQueue.push_nil, newUrls]
  | cons u rest ih =>
    intro q
    by_cases h : u ∈ q.seen
    · rw [UrlQueue.push_cons]
      have hq : q.pushOne u = q := by simp only [UrlQueue.pushOne, if_pos h]
      rw [hq, ih q, newUrls, if_pos h]
    · rw [UrlQueue.push_cons]
      have hq : q.pushOne u = { queue := q.queue ++ [u], seen := u :: q.seen } := by
        simp only [UrlQueue.pushOne, if_neg h]
      rw [hq, ih, newUrls, if_neg h]
      simp [List.append_assoc]

theorem UrlQueue.push_queue_mem (q : UrlQueue) (l : List String) (v : String) :
    v ∈ (q.push l).queue ↔ v ∈ q.queue ∨ (v ∈ l ∧ v ∉ q.seen) := by
  rw [UrlQueue.push_queue_eq, List.mem_append, mem_newUrls]

theorem UrlQueue.push_sub (q : UrlQueue) (l : List String)
    (hsub : ∀ v ∈ q.queue, v ∈ q.seen) :
    ∀ v ∈ (q.push l).queue, v ∈ (q.push l).seen := by
  intro v hv
  rw [UrlQueue.push_queue_mem] at hv
  rw [UrlQueue.push_seen]
  rcases hv with hv | ⟨hl, _⟩
  · exact Or.inr (hsub v hv)
  · exact Or.inl hl

theorem UrlQueue.push_queue_nodup (q : UrlQueue) (l : List String)
    (hnd : q.queue.Nodup) (hsub : ∀ v ∈ q.queue, v ∈ q.seen) :
    (q.push l).queue.Nodup := by
  rw [UrlQueue.push_queue_eq]
  refine hnd.append (nodup_newUrls l q.seen) ?_
  intro v hv hvn
  exact ((mem_newUrls l q.seen v).1 hvn).2 (hsub v hv)

theorem UrlQueue.push_count_of_seen (q : UrlQueue) (l : List String) (u : String)
    (hu : u ∈ q.seen) : (q.push l).queue.count u = q.queue.count u := by
  rw [UrlQueue.push_queue_eq, List.count_append]
  have hz : (newUrls q.seen l).count u = 0 :=
    List.count_eq_zero.2 fun hmem => ((mem_newUrls l q.seen u).1 hmem).2 hu
  rw [hz, Nat.add_zero]

theorem UrlQueue.push_of_all_seen (l : List String) :
    ∀ q : UrlQueue, (∀ v ∈ l, v ∈ q.seen) → q.push l = q := by
  induction l with
  | nil => intro q _; rfl
  | cons u rest ih =>
    intro q h
    rw [UrlQueue.push_cons]
    have hq : q.pushOne u = q := by
      simp only [UrlQueue.pushOne, if_pos (h u (List.mem_cons_self u rest))]
    rw [hq]
    exact ih q fun v hv => h v (List.mem_cons_of_mem u hv)

theorem UrlQueue.take_of_nil (q : UrlQueue) (h : q.queue = []) : q.take = (none, q) := by
  cases q with
  | mk qu se =>
    simp only at h
    subst h
    simp [UrlQueue.take]

theorem UrlQueue.take_of_concat (q : UrlQueue) (l : List String) (a : String)
    (h : q.queue = l ++ [a]) : q.take = (some a, { queue := l, seen := q.seen }) := by
  simp [UrlQueue.take, h, List.getLast?_concat, List.dropLast_concat]

theorem UrlQueue.drainFuel_eq (n : Nat) :
    ∀ q : UrlQueue, q.queue.length ≤ n → UrlQueue.drainFuel n q = q.queue.reverse := by
  induction n with
  | zero =>
    intro q h
    have hq : q.queue = [] := List.eq_nil_of_length_eq_zero (Nat.le_zero.1 h)
    rw [hq]
    rfl
  | succ n ih =>
    intro q h
    rcases List.eq_nil_or_concat q.queue with hnil | ⟨l, a, hcat⟩
    · rw [UrlQueue.drainFuel, UrlQueue.take_of_nil q hnil, hnil]
      rfl
    · have hcat' : q.queue = l ++ [a] := by simpa [List.concat_eq_append] using hcat
      rw [UrlQueue.drainFuel, UrlQueue.take_of_concat q l a hcat']
      have hlen : l.length ≤ n := by
        have := h
        rw [hcat', List.length_append] at this
        simpa using Nat.lt_succ_iff.mp (Nat.lt_of_lt_of_le (Nat.lt_succ_of_le le_rfl) this)
      show a :: UrlQueue.drainFuel n { queue := l, seen := q.seen } = q.queue.reverse
      rw [ih { queue := l, seen := q.seen } hlen, hcat']
      simp

theorem UrlQueue.drain_eq (q : UrlQueue) : q.drain = q.queue.reverse :=
  UrlQueue.drainFuel_eq _ q le_rfl

/-- The conservation invariant of an arbitrary run: starting from a state
whose queue is duplicate-free and recorded in `seen`, the outputs of the
run are duplicate-free and disjoint from the remaining queue, `seen`
accumulates exactly the supplied URLs, and a URL is output or still
pending exactly when it was pending initially or is a newly supplied one. -/
theorem runOps_spec (ops : List Op) :
    ∀ q : UrlQueue, q.queue.Nodup → (∀ v ∈ q.queue, v ∈ q.seen) →
      (runOps q ops).1.Nodup
      ∧ (runOps q ops).2.queue.Nodup
      ∧ (∀ v ∈ (runOps q ops).2.queue, v ∈ (runOps q ops).2.seen)
      ∧ (∀ v, ¬(v ∈ (runOps q ops).1 ∧ v ∈ (runOps q ops).2.queue))
      ∧ (∀ v, v ∈ (runOps q ops).2.seen ↔ v ∈ q.seen ∨ v ∈ suppliedOf ops)
      ∧ (∀ v, (v ∈ (runOps q ops).1 ∨ v ∈ (runOps q ops).2.queue)
          ↔ (v ∈ q.queue ∨ (v ∈ suppliedOf ops ∧ v ∉ q.seen))) := by
  induction ops with
  | nil =>
    intro q hnd hsub
    simp only [runOps, suppliedOf]
    refine ⟨List.nodup_nil, hnd, hsub, ?_, ?_, ?_⟩
    · rintro v ⟨hv, _⟩
      exact (List.not_mem_nil v) hv
    · intro v; simp
    · intro v; simp
  | cons op rest ih =>
    cases op with
    | push urls =>
      intro q hnd hsub
      simp only [runOps, suppliedOf]
      obtain ⟨h1, h2, h3, h4, h5, h6⟩ :=
        ih (q.push urls) (UrlQueue.push_queue_nodup q urls hnd hsub) (UrlQueue.push_sub q urls hsub)
      refine ⟨h1, h2, h3, h4, ?_, ?_⟩
      · intro v
        rw [h5 v, UrlQueue.push_seen]
        simp only [List.mem_append]
        tauto
      · intro v
        rw [h6 v, UrlQueue.push_queue_mem, UrlQueue.push_seen]
        simp only [List.mem_append]
        tauto
    | take =>
      intro q hnd hsub
      rcases List.eq_nil_or_concat q.queue with hnil | ⟨l, a, hcat⟩
      · have ht := UrlQueue.take_of_nil q hnil
        simp only [runOps, ht, suppliedOf]
        have h := ih q hnd hsub
        simpa only [hnil] using h
      · have hcat' : q.queue = l ++ [a] := by simpa [List.concat_eq_append] using hcat
        have ht := UrlQueue.take_of_concat q l a hcat'
        have hnd' : l.Nodup := by
          rw [hcat'] at hnd
          exact (List.nodup_append.1 hnd).1
        have hanotl : a ∉ l := by
          rw [hcat'] at hnd
          rcases List.nodup_append.1 hnd with ⟨_, _, hdisj⟩
          intro hal
          exact hdisj hal (List.mem_singleton.2 rfl)
        have hasub : a ∈ q.seen := by
          refine hsub a ?_
          rw [hcat']
          exact List.mem_append_right l (List.mem_singleton.2 rfl)
        have hsub' : ∀ v ∈ l, v ∈ q.seen := fun v hv => by
          refine hsub v ?_
          rw [hcat']
          exact List.mem_append_left _ hv
        obtain ⟨h1, h2, h3, h4, h5, h6⟩ :=
          ih { queue := l, seen := q.seen } hnd' hsub'
        have h5' : ∀ v, v ∈ (runOps { queue := l, seen := q.seen } rest).2.seen ↔
            v ∈ q.seen ∨ v ∈ suppliedOf rest := h5
        have h6' : ∀ v, (v ∈ (runOps { queue := l, seen := q.seen } rest).1 ∨
              v ∈ (runOps { queue := l, seen := q.seen } rest).2.queue)
            ↔ (v ∈ l ∨ (v ∈ suppliedOf rest ∧ v ∉ q.seen)) := h6
        have hano : a ∉ (runOps { queue := l, seen := q.seen } rest).1 := by
          intro hmem
          rcases (h6' a).1 (Or.inl hmem) with hql | ⟨_, hns⟩
          · exact hanotl hql
          · exact hns hasub
        have hanq : a ∉ (runOps { queue := l, seen := q.seen } rest).2.queue := by
          intro hmem
          rcases (h6' a).1 (Or.inr hmem) with hql | ⟨_, hns⟩
          · exact hanotl hql
          · exact hns hasub
        simp only [runOps, ht, suppliedOf]
        refine ⟨List.nodup_cons.2 ⟨hano, h1⟩, h2, h3, ?_, h5', ?_⟩
        · rintro v ⟨hv, hvq⟩
          rcases List.mem_cons.1 hv with rfl | hv'
          · exact hanq hvq
          · exact h4 v ⟨hv', hvq⟩
        · intro v
          have hmemq : v ∈ q.queue ↔ v ∈ l ∨ v = a := by
            rw [hcat']
            simp [List.mem_append]
          simp only [List.mem_cons]
          rw [hmemq]
          have h6v := h6' v
          tauto

/-! ### The claims -/

/-- C1: for a Frontier seeded with a single start URL and any sequence of
push and take calls whose final pending queue is drained, the combined
output of the successful take calls contains each distinct URL ever
supplied (the seed included) exactly once: none dropped, none returned
twice. -/
theorem claim_C1_dedup_no_loss (seed : String) (ops : List Op)
    (hdrain : (runOps (UrlQueue.new [seed]) ops).2.queue = []) :
    (runOps (UrlQueue.new [seed]) ops).1.Nodup
    ∧ (∀ v, v ∈ (runOps (UrlQueue.new [seed]) ops).1 ↔ v = seed ∨ v ∈ suppliedOf ops) := by
  obtain ⟨h1, _, _, _, _, h6⟩ := runOps_spec ops (UrlQueue.new [seed])
    (List.nodup_singleton seed) (fun v hv => hv)
  refine ⟨h1, fun v => ?_⟩
  have hv := h6 v
  rw [hdrain] at hv
  have hv' : v ∈ (runOps (UrlQueue.new [seed]) ops).1 ∨ v ∈ ([] : List String) ↔
      (v ∈ [seed] ∨ (v ∈ suppliedOf ops ∧ v ∉ [seed])) := hv
  simp only [List.not_mem_nil, or_false, List.mem_singleton] at hv'
  rw [hv']
  by_cases h : v = seed <;> tauto

theorem claim_C1_witness :
    (runOps (UrlQueue.new ["a"]) [Op.push ["b", "c"], Op.take, Op.take, Op.take]).1.Nodup
    ∧ ("b" ∈ (runOps (UrlQueue.new ["a"]) [Op.push ["b", "c"], Op.take, Op.take, Op.take]).1
        ↔ "b" = "a" ∨ "b" ∈ suppliedOf [Op.push ["b", "c"], Op.take, Op.take, Op.take]) :=
  ⟨(claim_C1_dedup_no_loss "a" [Op.push ["b", "c"], Op.take, Op.take, Op.take] (by decide)).1,
   (claim_C1_dedup_no_loss "a" [Op.push ["b", "c"], Op.take, Op.take, Op.take] (by decide)).2 "b"⟩

/-- C2: LIFO order.  Draining after pushes P1 then P2 yields P2's
not-yet-seen URLs in reverse order, then the queue as it stood after P1
(its not-yet-seen URLs atop the prior queue) in reverse order; and the
concrete scenario of `sync_test`: seed `/1`, push `[/2, /3]`, take `/3`
then `/2`, push `[/4, /5]`, take `/5`, `/4`, `/1`, then nothing. -/
theorem claim_C2_lifo :
    (∀ (q : UrlQueue) (P1 P2 : List String),
      ((q.push P1).push P2).drain
        = (newUrls (q.push P1).seen P2).reverse
            ++ ((newUrls q.seen P1).reverse ++ q.queue.reverse))
    ∧ (let q1 := (UrlQueue.new ["https://example.com/1"]).push
          ["https://example.com/2", "https://example.com/3"]
       let t1 := q1.take
       let t2 := t1.2.take
       let q2 := t2.2.push ["https://example.com/4", "https://example.com/5"]
       let t3 := q2.take
       let t4 := t3.2.take
       let t5 := t4.2.take
       let t6 := t5.2.take
       t1.1 = some "https://example.com/3" ∧ t2.1 = some "https://example.com/2"
         ∧ t3.1 = some "https://example.com/5" ∧ t4.1 = some "https://example.com/4"
         ∧ t5.1 = some "https://example.com/1" ∧ t6.1 = none) := by
  constructor
  · intro q P1 P2
    rw [UrlQueue.drain_eq, UrlQueue.push_queue_eq, UrlQueue.push_queue_eq]
    simp [List.reverse_append, List.append_assoc]
  · exact ⟨rfl, rfl, rfl, rfl, rfl, rfl⟩

/-- C3: construction, push and take preserve `pending ⊆ seen`; `seen`
never loses an element under push or take; and a URL already in `seen` is
never appended to `pending` again (its multiplicity in the queue is
unchanged by any push). -/
theorem claim_C3_invariants :
    (∀ l, ∀ v ∈ (UrlQueue.new l).queue, v ∈ (UrlQueue.new l).seen)
    ∧ (∀ (q : UrlQueue) (l : List String), (∀ v ∈ q.queue, v ∈ q.seen) →
        ∀ v ∈ (q.push l).queue, v ∈ (q.push l).seen)
    ∧ (∀ (q : UrlQueue) (l : List String) (v : String), v ∈ q.seen → v ∈ (q.push l).seen)
    ∧ (∀ (q : UrlQueue) (v : String), v ∈ q.seen → v ∈ q.take.2.seen)
    ∧ (∀ q : UrlQueue, (∀ v ∈ q.queue, v ∈ q.seen) →
        ∀ v ∈ q.take.2.queue, v ∈ q.take.2.seen)
    ∧ (∀ (q : UrlQueue) (l : List String) (v : String), v ∈ q.seen →
        (q.push l).queue.count v = q.queue.count v) := by
  refine ⟨fun l v hv => hv, UrlQueue.push_sub, ?_, fun q v hv => hv, ?_, ?_⟩
  · intro q l v hv
    rw [UrlQueue.push_seen]
    exact Or.inr hv
  · intro q hsub v hv
    have hv' : v ∈ q.queue.dropLast := hv
    exact hsub v ((List.dropLast_sublist q.queue).subset hv')
  · intro q l v hv
    exact UrlQueue.push_count_of_seen q l v hv

theorem claim_C3_witness :
    ("b" ∈ ((UrlQueue.new ["a"]).push ["b"]).seen)
    ∧ ("a" ∈ ((UrlQueue.new ["a"]).push ["b"]).seen)
    ∧ ("a" ∈ ((UrlQueue.new ["a", "b"]).take.2).seen)
    ∧ ("a" ∈ ((UrlQueue.new ["a", "b"]).take.2).queue →
        "a" ∈ ((UrlQueue.new ["a", "b"]).take.2).seen)
    ∧ (((UrlQueue.new ["a"]).push ["a", "b"]).queue.count "a"
        = (UrlQueue.new ["a"]).queue.count "a") :=
  ⟨claim_C3_invariants.2.1 (UrlQueue.new ["a"]) ["b"] (fun v hv => hv) "b" (by decide),
   claim_C3_invariants.2.2.1 (UrlQueue.new ["a"]) ["b"] "a" (by decide),
   claim_C3_invariants.2.2.2.1 (UrlQueue.new ["a", "b"]) "a" (by decide),
   fun h => claim_C3_invariants.2.2.2.2.1 (UrlQueue.new ["a", "b"]) (fun v hv => hv) "a" h,
   claim_C3_invariants.2.2.2.2.2 (UrlQueue.new ["a"]) ["a", "b"] "a" (by decide)⟩

/-- C6: pushing a URL already in `seen` is a no-op on the whole state, and
pushing the same list twice equals pushing it once. -/
theorem claim_C6_idempotent :
    (∀ (q : UrlQueue) (u : String), u ∈ q.seen → q.push [u] = q)
    ∧ (∀ (q : UrlQueue) (l : List String), (q.push l).push l = q.push l) := by
  constructor
  · intro q u hu
    rw [UrlQueue.push_cons]
    have hq : q.pushOne u = q := by simp only [UrlQueue.pushOne, if_pos hu]
    rw [hq, UrlQueue.push_nil]
  · intro q l
    refine UrlQueue.push_of_all_seen l (q.push l) ?_
    intro v hv
    rw [UrlQueue.push_seen]
    exact Or.inl hv

theorem claim_C6_witness :
    (UrlQueue.new ["a"]).push ["a"] = UrlQueue.new ["a"]
    ∧ ((UrlQueue.new ["a"]).push ["b"]).push ["b"] = (UrlQueue.new ["a"]).push ["b"] :=
  ⟨claim_C6_idempotent.1 (UrlQueue.new ["a"]) "a" (by decide),
   claim_C6_idempotent.2 (UrlQueue.new ["a"]) ["b"]⟩

/-- C7: `take` on an empty Frontier — freshly constructed with no seeds,
or any state whose queue is drained — returns `none` and leaves the state
unchanged; no error value is surfaced (both operations are total, the only
failure in the source being the fatal `expect` on a poisoned lock). -/
theorem claim_C7_empty_take :
    (UrlQueue.new []).take = (none, UrlQueue.new [])
    ∧ (∀ q : UrlQueue, q.queue = [] → q.take = (none, q)) :=
  ⟨UrlQueue.take_of_nil (UrlQueue.new []) rfl, UrlQueue.take_of_nil⟩

theorem claim_C7_witness :
    ({ queue := [], seen := ["x"] } : UrlQueue).take
      = (none, ({ queue := [], seen := ["x"] } : UrlQueue)) :=
  claim_C7_empty_take.2 { queue := [], seen := ["x"] } rfl

/-- C9: `UrlQueue::new` accepts an arbitrary seed list, keeps `queue`
exactly equal to it (duplicates preserved) and `seen` equal to its set of
elements; a duplicated seed is therefore returned by `take` twice. -/
theorem claim_C9_seed_no_dedup :
    (∀ l, (UrlQueue.new l).queue = l)
    ∧ (∀ (l : List String) (v : String), v ∈ (UrlQueue.new l).seen ↔ v ∈ l)
    ∧ (∀ u : String, (UrlQueue.new [u, u]).drain = [u, u]) := by
  refine ⟨fun l => rfl, fun l v => Iff.rfl, fun u => ?_⟩
  rw [UrlQueue.drain_eq]
  rfl

/-- C10: the `UrlQueue` of `crawler.rs` — the one held by the `Crawler`
that `main` constructs — has no seen-set: `add` unconditionally appends
every input URL (draining the caller's vector), so a URL already present
or previously taken is enqueued again and can be returned by `take`
repeatedly. -/
theorem claim_C10_crawler_queue_no_dedup :
    (∀ (q : CrawlerMod.UrlQueue) (urls : List String),
        (q.add urls).1.queue = q.queue ++ urls ∧ (q.add urls).2 = [])
    ∧ (∀ (c : CrawlerMod.CrawlerConfig) (s : String),
        (CrawlerMod.Crawler.new c s).urls = CrawlerMod.UrlQueue.new s)
    ∧ (∀ u : String, ((CrawlerMod.UrlQueue.new u).add [u]).1.queue = [u, u])
    ∧ (∀ u : String, (((CrawlerMod.UrlQueue.new u).take.2).add [u]).1.take.1 = some u) := by
  refine ⟨fun q urls => ⟨rfl, rfl⟩, fun c s => rfl, fun u => rfl, fun u => rfl⟩

set_option maxRecDepth 100000 in
/-- C5, counterexample: in the scenario of `test::async_test` (each of the
10 pushers pushes its two batches — 4 URLs unique to it plus the shared
duplicate twice — and the takers then attempt their 100 takes), the number
of successful takes is 42, not 41 as claimed. -/
theorem claim_C5_counterexample :
    scenarioBRun.1.length = 42 ∧ ¬(scenarioBRun.1.length = 41) := by
  have h42 : scenarioBRun.1.length = 42 := by rfl
  exact ⟨h42, by rw [h42]; decide⟩

set_option maxRecDepth 100000 in
/-- C5, amended: in that scenario the total number of successful takes is
42 (10 pushers × 4 unique URLs + 1 shared duplicate + 1 seed), every taken
URL is distinct, and a final take on the drained queue returns nothing. -/
theorem claim_C5_amended :
    scenarioBRun.1.length = 42
    ∧ scenarioBRun.1.Nodup
    ∧ scenarioBRun.2.queue = []
    ∧ scenarioBRun.2.take.1 = none := by
  have hempty : scenarioBRun.2.queue = [] := by rfl
  have hnd : scenarioBRun.1.Nodup :=
    (runOps_spec scenarioBOps (UrlQueue.new ["https://example.com/1"])
      (List.nodup_singleton _) (fun v hv => hv)).1
  refine ⟨by rfl, hnd, hempty, ?_⟩
  rw [UrlQueue.take_of_nil scenarioBRun.2 hempty]

/-- C8, counterexample: invoked with an empty `allow_urls` list, `main`
prints the error line and constructs no crawler, but returns normally, so
the process exit status is success (0) — not the non-zero/non-success
status the claim requires. -/
theorem claim_C8_counterexample :
    (mainModel emptyAllowArgs).1.output = ["error: there must be at least 1 allow url"]
    ∧ (mainModel emptyAllowArgs).2 = none
    ∧ (mainModel emptyAllowArgs).1.exitSuccess = true
    ∧ ¬((mainModel emptyAllowArgs).1.exitSuccess = false) := by
  refine ⟨rfl, rfl, rfl, by decide⟩

/-- C8, amended: with an empty `allow_urls` list the program prints a
user-visible error message and returns early — with a success (zero) exit
status — without constructing the crawler or performing any crawling. -/
theorem claim_C8_amended (args : Args) (h : args.allow_urls = []) :
    (mainModel args).1.output = ["error: there must be at least 1 allow url"]
    ∧ (mainModel args).2 = none
    ∧ (mainModel args).1.exitSuccess = true := by
  have hlen : args.allow_urls.length = 0 := by rw [h]; rfl
  simp [mainModel, hlen]

theorem claim_C8_witness :
    (mainModel emptyAllowArgs).1.output = ["error: there must be at least 1 allow url"]
    ∧ (mainModel emptyAllowArgs).2 = none
    ∧ (mainModel emptyAllowArgs).1.exitSuccess = true :=
  claim_C8_amended emptyAllowArgs rfl

/-! ### Invariant proofs for the concurrent model -/

namespace Conc

theorem setT_same (f : Nat → TState) (i : Nat) (t : TState) : setT f i t i = t := by
  simp [setT]

theorem setT_other (f : Nat → TState) (i : Nat) (t : TState) (j : Nat) (h : j ≠ i) :
    setT f i t j = f j := by
  simp [setT, h]

/-- The invariant is preserved by every small step. -/
theorem Inv_step {s s' : CState} (hinv : Inv s) (hstep : Step s s') : Inv s' := by
  obtain ⟨hsub, hnd, henq, hps, hqo, hso, hfr⟩ := hinv
  cases hstep with
  | pAcqQ i urls hts hq =>
    refine ⟨hsub, hnd, henq, hps, ?_, ?_, ?_⟩
    · intro j hj
      dsimp only at hj ⊢
      by_cases hji : j = i
      · subst hji; rfl
      · rw [setT_other s.ts i _ j hji] at hj
        have hc := hqo j hj
        rw [hq] at hc
        exact absurd hc (by simp)
    · intro j hj
      dsimp only at hj ⊢
      by_cases hji : j = i
      · subst hji
        rw [setT_same] at hj
        exact (hj : False).elim
      · rw [setT_other s.ts i _ j hji] at hj
        exact hso j hj
    · intro j u' rest' hj
      dsimp only at hj ⊢
      by_cases hji : j = i
      · subst hji; rw [setT_same] at hj; simp at hj
      · rw [setT_other s.ts i _ j hji] at hj
        exact hfr j u' rest' hj
  | pAcqS i urls hts hs =>
    refine ⟨hsub, hnd, henq, hps, ?_, ?_, ?_⟩
    · intro j hj
      dsimp only at hj ⊢
      by_cases hji : j = i
      · subst hji
        exact hqo j (by rw [hts]; trivial)
      · rw [setT_other s.ts i _ j hji] at hj
        exact hqo j hj
    · intro j hj
      dsimp only at hj ⊢
      by_cases hji : j = i
      · subst hji; rfl
      · rw [setT_other s.ts i _ j hji] at hj
        have hc := hso j hj
        rw [hs] at hc
        exact absurd hc (by simp)
    · intro j u' rest' hj
      dsimp only at hj ⊢
      by_cases hji : j = i
      · subst hji; rw [setT_same] at hj; simp at hj
      · rw [setT_other s.ts i _ j hji] at hj
        exact hfr j u' rest' hj
  | pSkip i u rest hts hmem =>
    refine ⟨hsub, hnd, henq, hps, ?_, ?_, ?_⟩
    · intro j hj
      dsimp only at hj ⊢
      by_cases hji : j = i
      · subst hji
        exact hqo j (by rw [hts]; trivial)
      · rw [setT_other s.ts i _ j hji] at hj
        exact hqo j hj
    · intro j hj
      dsimp only at hj ⊢
      by_cases hji : j = i
      · subst hji
        exact hso j (by rw [hts]; trivial)
      · rw [setT_other s.ts i _ j hji] at hj
        exact hso j hj
    · intro j u' rest' hj
      dsimp only at hj ⊢
      by_cases hji : j = i
      · subst hji; rw [setT_same] at hj; simp at hj
      · rw [setT_other s.ts i _ j hji] at hj
        exact hfr j u' rest' hj
  | pCheck i u rest hts hmem =>
    refine ⟨hsub, hnd, henq, hps, ?_, ?_, ?_⟩
    · intro j hj
      dsimp only at hj ⊢
      by_cases hji : j = i
      · subst hji
        exact hqo j (by rw [hts]; trivial)
      · rw [setT_other s.ts i _ j hji] at hj
        exact hqo j hj
    · intro j hj
      dsimp only at hj ⊢
      by_cases hji : j = i
      · subst hji
        exact hso j (by rw [hts]; trivial)
      · rw [setT_other s.ts i _ j hji] at hj
        exact hso j hj
    · intro j u' rest' hj
      dsimp only at hj ⊢
      by_cases hji : j = i
      · subst hji
        rw [setT_same] at hj
        injection hj with h1 h2
        subst h1
        exact hmem
      · rw [setT_other s.ts i _ j hji] at hj
        exact hfr j u' rest' hj
  | pAppend i u rest hts =>
    have hu : u ∉ s.seen := hfr i u rest hts
    refine ⟨?_, ?_, ?_, ?_, ?_, ?_, ?_⟩
    · intro v hv
      dsimp only at hv ⊢
      rcases List.mem_append.1 hv with hv | hv
      · exact List.mem_cons_of_mem u (hsub v hv)
      · rw [List.mem_singleton] at hv
        subst hv
        exact List.mem_cons_self v s.seen
    · dsimp only
      refine hnd.append (List.nodup_singleton u) ?_
      intro v hv hvu
      rw [List.mem_singleton] at hvu
      subst hvu
      exact hu (henq v hv)
    · intro v hv
      dsimp only at hv ⊢
      rcases List.mem_append.1 hv with hv | hv
      · exact List.mem_cons_of_mem u (henq v hv)
      · rw [List.mem_singleton] at hv
        subst hv
        exact List.mem_cons_self v s.seen
    · dsimp only
      exact hps.append (List.Sublist.refl [u])
    · intro j hj
      dsimp only at hj ⊢
      by_cases hji : j = i
      · subst hji
        exact hqo j (by rw [hts]; trivial)
      · rw [setT_other s.ts i _ j hji] at hj
        exact hqo j hj
    · intro j hj
      dsimp only at hj ⊢
      by_cases hji : j = i
      · subst hji
        exact hso j (by rw [hts]; trivial)
      · rw [setT_other s.ts i _ j hji] at hj
        exact hso j hj
    · intro j u' rest' hj
      dsimp only at hj ⊢
      by_cases hji : j = i
      · subst hji; rw [setT_same] at hj; simp at hj
      · rw [setT_other s.ts i _ j hji] at hj
        have h1 : s.slock = some i := hso i (by rw [hts]; trivial)
        have h2 : s.slock = some j := hso j (by rw [hj]; trivial)
        rw [h1] at h2
        injection h2 with h2
        exact absurd h2.symm hji
  | pExit i hts =>
    refine ⟨hsub, hnd, henq, hps, ?_, ?_, ?_⟩
    · intro j hj
      dsimp only at hj ⊢
      by_cases hji : j = i
      · subst hji
        exact hqo j (by rw [hts]; trivial)
      · rw [setT_other s.ts i _ j hji] at hj
        exact hqo j hj
    · intro j hj
      dsimp only at hj ⊢
      by_cases hji : j = i
      · subst hji
        exact hso j (by rw [hts]; trivial)
      · rw [setT_other s.ts i _ j hji] at hj
        exact hso j hj
    · intro j u' rest' hj
      dsimp only at hj ⊢
      by_cases hji : j = i
      · subst hji; rw [setT_same] at hj; simp at hj
      · rw [setT_other s.ts i _ j hji] at hj
        exact hfr j u' rest' hj
  | pUnlockS i hts =>
    refine ⟨hsub, hnd, henq, hps, ?_, ?_, ?_⟩
    · intro j hj
      dsimp only at hj ⊢
      by_cases hji : j = i
      · subst hji
        exact hqo j (by rw [hts]; trivial)
      · rw [setT_other s.ts i _ j hji] at hj
        exact hqo j hj
    · intro j hj
      dsimp only at hj ⊢
      by_cases hji : j = i
      · subst hji
        rw [setT_same] at hj
        exact (hj : False).elim
      · rw [setT_other s.ts i _ j hji] at hj
        have h1 : s.slock = some i := hso i (by rw [hts]; trivial)
        have h2 : s.slock = some j := hso j hj
        rw [h1] at h2
        injection h2 with h2
        exact absurd h2.symm hji
    · intro j u' rest' hj
      dsimp only at hj ⊢
      by_cases hji : j = i
      · subst hji; rw [setT_same] at hj; simp at hj
      · rw [setT_other s.ts i _ j hji] at hj
        exact hfr j u' rest' hj
  | pUnlockQ i hts =>
    refine ⟨hsub, hnd, henq, hps, ?_, ?_, ?_⟩
    · intro j hj
      dsimp only at hj ⊢
      by_cases hji : j = i
      · subst hji
        rw [setT_same] at hj
        exact (hj : False).elim
      · rw [setT_other s.ts i _ j hji] at hj
        have h1 : s.qlock = some i := hqo i (by rw [hts]; trivial)
        have h2 : s.qlock = some j := hqo j hj
        rw [h1] at h2
        injection h2 with h2
        exact absurd h2.symm hji
    · intro j hj
      dsimp only at hj ⊢
      by_cases hji : j = i
      · subst hji
        rw [setT_same] at hj
        exact (hj : False).elim
      · rw [setT_other s.ts i _ j hji] at hj
        exact hso j hj
    · intro j u' rest' hj
      dsimp only at hj ⊢
      by_cases hji : j = i
      · subst hji; rw [setT_same] at hj; simp at hj
      · rw [setT_other s.ts i _ j hji] at hj
        exact hfr j u' rest' hj
  | tAcqQ i hts hq =>
    refine ⟨hsub, hnd, henq, hps, ?_, ?_, ?_⟩
    · intro j hj
      dsimp only at hj ⊢
      by_cases hji : j = i
      · subst hji; rfl
      · rw [setT_other s.ts i _ j hji] at hj
        have hc := hqo j hj
        rw [hq] at hc
        exact absurd hc (by simp)
    · intro j hj
      dsimp only at hj ⊢
      by_cases hji : j = i
      · subst hji
        rw [setT_same] at hj
        exact (hj : False).elim
      · rw [setT_other s.ts i _ j hji] at hj
        exact hso j hj
    · intro j u' rest' hj
      dsimp only at hj ⊢
      by_cases hji : j = i
      · subst hji; rw [setT_same] at hj; simp at hj
      · rw [setT_other s.ts i _ j hji] at hj
        exact hfr j u' rest' hj
  | tPopStep i hts =>
    refine ⟨?_, hnd, henq, ?_, ?_, ?_, ?_⟩
    · intro v hv
      dsimp only at hv ⊢
      exact hsub v ((List.dropLast_sublist s.pending).subset hv)
    · dsimp only
      exact (List.dropLast_sublist s.pending).trans hps
    · intro j hj
      dsimp only at hj ⊢
      by_cases hji : j = i
      · subst hji
        exact hqo j (by rw [hts]; trivial)
      · rw [setT_other s.ts i _ j hji] at hj
        exact hqo j hj
    · intro j hj
      dsimp only at hj ⊢
      by_cases hji : j = i
      · subst hji
        rw [setT_same] at hj
        exact (hj : False).elim
      · rw [setT_other s.ts i _ j hji] at hj
        exact hso j hj
    · intro j u' rest' hj
      dsimp only at hj ⊢
      by_cases hji : j = i
      · subst hji; rw [setT_same] at hj; simp at hj
      · rw [setT_other s.ts i _ j hji] at hj
        exact hfr j u' rest' hj
  | tUnlockQ i r hts =>
    refine ⟨hsub, hnd, henq, hps, ?_, ?_, ?_⟩
    · intro j hj
      dsimp only at hj ⊢
      by_cases hji : j = i
      · subst hji
        rw [setT_same] at hj
        exact (hj : False).elim
      · rw [setT_other s.ts i _ j hji] at hj
        have h1 : s.qlock = some i := hqo i (by rw [hts]; trivial)
        have h2 : s.qlock = some j := hqo j hj
        rw [h1] at h2
        injection h2 with h2
        exact absurd h2.symm hji
    · intro j hj
      dsimp only at hj ⊢
      by_cases hji : j = i
      · subst hji
        rw [setT_same] at hj
        exact (hj : False).elim
      · rw [setT_other s.ts i _ j hji] at hj
        exact hso j hj
    · intro j u' rest' hj
      dsimp only at hj ⊢
      by_cases hji : j = i
      · subst hji; rw [setT_same] at hj; simp at hj
      · rw [setT_other s.ts i _ j hji] at hj
        exact hfr j u' rest' hj

/-- A well-formed initial state satisfies the invariant. -/
theorem Inv_init {s : CState} (h : InitOK s) : Inv s := by
  obtain ⟨hq, hs, he, hsub, hnd, ht⟩ := h
  refine ⟨hsub, ?_, ?_, ?_, ?_, ?_, ?_⟩
  · rw [he]; exact hnd
  · intro v hv
    rw [he] at hv
    exact hsub v hv
  · rw [he]
  · intro i hi
    have hti := ht i
    cases hts : s.ts i <;> rw [hts] at hi hti <;>
      first
      | exact (hti : False).elim
      | exact (hi : False).elim
  · intro i hi
    have hti := ht i
    cases hts : s.ts i <;> rw [hts] at hi hti <;>
      first
      | exact (hti : False).elim
      | exact (hi : False).elim
  · intro i u rest hts
    have hti := ht i
    rw [hts] at hti
    exact (hti : False).elim

/-- The invariant holds in every reachable state. -/
theorem Inv_reach {s0 s : CState} (h0 : InitOK s0) (hr : Reach s0 s) : Inv s := by
  have hr' : Relation.ReflTransGen Step s0 s := hr
  clear hr
  induction hr' with
  | refl => exact Inv_init h0
  | tail _ hstep ih => exact Inv_step ih hstep

end Conc

/-- C4: in the fine-grained lock model, every reachable state of the system
satisfies mutual exclusion — at most one thread is inside a critical
section (a program position holding the `queue` mutex), so each push's
check/insert/append sequence and each take's remove-last run atomically —
and consequently no URL is ever enqueued into pending twice (the enqueue
history is duplicate-free), pending stays duplicate-free, and pending is
contained in seen. -/
theorem claim_C4_linearizable (s0 s : Conc.CState)
    (h0 : Conc.InitOK s0) (hr : Conc.Reach s0 s) :
    (∀ i j, Conc.holdsQ (s.ts i) → Conc.holdsQ (s.ts j) → i = j)
    ∧ s.enq.Nodup
    ∧ s.pending.Nodup
    ∧ (∀ v ∈ s.pending, v ∈ s.seen) := by
  have hinv := Conc.Inv_reach h0 hr
  refine ⟨?_, hinv.nodup, hinv.pendsub.nodup hinv.nodup, hinv.subseen⟩
  intro i j hi hj
  have h1 := hinv.qown i hi
  have h2 := hinv.qown j hj
  rw [h1] at h2
  exact Option.some.inj h2

theorem claim_C4_witness :
    (∀ i j, Conc.holdsQ (Conc.exampleInit.ts i) → Conc.holdsQ (Conc.exampleInit.ts j) → i = j)
    ∧ Conc.exampleInit.enq.Nodup
    ∧ Conc.exampleInit.pending.Nodup
    ∧ (∀ v ∈ Conc.exampleInit.pending, v ∈ Conc.exampleInit.seen) :=
  claim_C4_linearizable Conc.exampleInit Conc.exampleInit
    ⟨rfl, rfl, rfl, fun _ hv => hv, List.nodup_singleton _,
      fun i => by
        by_cases h0 : i = 0
        · simp [Conc.exampleInit, Conc.threadInit, h0]
        · by_cases h1 : i = 1
          · simp [Conc.exampleInit, Conc.threadInit, h0, h1]
          · simp [Conc.exampleInit, Conc.threadInit, h0, h1]⟩
    Relation.ReflTransGen.refl

end RusticCrawler
